import Mathlib

/-!
Verification of the file-exchanger protocol core (src/src/server.py,
src/client.py) via a shallow embedding.

Bytes are modelled as lists of characters (`Bytes`); wire payloads are
ASCII text plus arbitrary binary content, so one `Char` stands for one
byte.  A TCP connection's inbound data is modelled as the list of chunks
returned by successive `recv` calls (the list ending means the peer closed
the connection, i.e. `recv` returns an empty result).  File storage is an
association list from names to contents; writing a file overwrites the
entry in place, as the filesystem does.
-/

/-- Byte strings: one `Char` per byte. -/
abbrev Bytes := List Char

/-- The upload/download terminator, the literal byte sequence of
the Python constant b"<END>\n". -/
def sentinelB : Bytes := ['<', 'E', 'N', 'D', '>', '\n']

/-- Python bytes.split(sep, 1): split at the first occurrence of `sep`,
returning the part before it and the part after it; `none` when `sep`
does not occur.  Mirrors the `buffer.split(b"<END>\n", 1)` and
`buffer.split(b"\n", 1)` calls in server.py. -/
def splitOnce (sep : Bytes) : Bytes → Option (Bytes × Bytes)
  | [] => if sep = [] then some ([], []) else none
  | c :: rest =>
      if sep.isPrefixOf (c :: rest) then some ([], (c :: rest).drop sep.length)
      else (splitOnce sep rest).map (fun pr => (c :: pr.1, pr.2))

/-- Python's `sep in b` test on bytes. -/
def containsB (sep b : Bytes) : Bool := (splitOnce sep b).isSome

/-- The ASCII whitespace characters recognised by Python's str.strip()
and str.split() (the inputs here are ASCII command lines). -/
def pySpace (c : Char) : Bool :=
  c = ' ' || c = '\t' || c = '\n' || c = '\r' || c = '\x0b' || c = '\x0c'

/-- Python str.strip(): drop leading and trailing whitespace. -/
def pyStrip (b : Bytes) : Bytes :=
  ((b.dropWhile pySpace).reverse.dropWhile pySpace).reverse

/-- Worker for `pySplit`; `acc` holds the current word reversed. -/
def pySplitAux : Bytes → Bytes → List Bytes
  | [], acc => if acc = [] then [] else [acc.reverse]
  | c :: rest, acc =>
      if pySpace c then
        if acc = [] then pySplitAux rest [] else acc.reverse :: pySplitAux rest []
      else pySplitAux rest (c :: acc)

/-- Python str.split() with no argument: split on runs of whitespace,
producing no empty tokens.  Used by both dispatchers (`line.split()`). -/
def pySplit (b : Bytes) : List Bytes := pySplitAux b []

/-- ASCII upper-casing of one character, the effect of Python
str.upper() on the ASCII command tokens compared against "LOAD", "GET",
"FILE", "FILES" and "ALL". -/
def asciiUpper (c : Char) : Char :=
  if 'a' ≤ c ∧ c ≤ 'z' then Char.ofNat (c.toNat - 32) else c

/-- str.upper() over a byte string. -/
def asciiUpperB (b : Bytes) : Bytes := b.map asciiUpper

/-- Decimal digit characters of a natural number, the bytes Python's
str(size) interpolates into the `READY <size>` line. -/
def natToBytes (n : Nat) : Bytes :=
  if n = 0 then ['0'] else ((Nat.digits 10 n).map Nat.digitChar).reverse

/-- Worker for `parseNat`: left fold over decimal digits. -/
def parseNatAux : Bytes → Nat → Option Nat
  | [], acc => some acc
  | c :: rest, acc =>
      if c.isDigit then parseNatAux rest (acc * 10 + (c.toNat - 48)) else none

/-- Python int(s) restricted to non-empty all-digit strings, the shape
the client's download parser feeds it (`int(parts[1])`). -/
def parseNat (b : Bytes) : Option Nat :=
  if b = [] then none else parseNatAux b 0

/-- Server-side storage: an association list from file names to byte
contents, standing for the storage directory. -/
abbrev Storage := List (Bytes × Bytes)

/-- os.path.isfile / open(path, "rb"): look a name up in storage. -/
def storageLookup : Storage → Bytes → Option Bytes
  | [], _ => none
  | (k, v) :: rest, n => if k = n then some v else storageLookup rest n

/-- open(path, "wb") followed by writes: create or overwrite the named
entry, keeping the other entries and the directory order. -/
def storageInsert : Storage → Bytes → Bytes → Storage
  | [], n, c => [(n, c)]
  | (k, v) :: rest, n, c =>
      if k = n then (n, c) :: rest else (k, v) :: storageInsert rest n c

/-- os.listdir: the names currently in storage. -/
def storageNames (st : Storage) : List Bytes := st.map (fun e => e.1)

/-- File-stream chunking: the successive results of f.read(4096) on a
file holding `b`, and likewise the client's 4096-byte upload chunks. -/
def chunks4096 (b : Bytes) : List Bytes :=
  match h : b with
  | [] => []
  | _ :: _ => b.take 4096 :: chunks4096 (b.drop 4096)
  termination_by b.length
  decreasing_by simp_all [List.length_drop]; omega

-- Basic facts about the helpers.

theorem splitOnce_nil (sep : Bytes) :
    splitOnce sep [] = if sep = [] then some ([], []) else none := rfl

theorem splitOnce_cons (sep : Bytes) (c : Char) (rest : Bytes) :
    splitOnce sep (c :: rest) =
      if sep.isPrefixOf (c :: rest) then some ([], (c :: rest).drop sep.length)
      else (splitOnce sep rest).map (fun pr => (c :: pr.1, pr.2)) := rfl

theorem splitOnce_nil_of_ne {sep : Bytes} (hs : sep ≠ []) :
    splitOnce sep [] = none := by simp [splitOnce_nil, hs]

theorem splitOnce_some_decomp {sep b l r : Bytes}
    (h : splitOnce sep b = some (l, r)) : b = l ++ sep ++ r := by
  induction b generalizing l r with
  | nil =>
      rw [splitOnce_nil] at h
      by_cases hs : sep = ([] : Bytes)
      · rw [if_pos hs] at h
        have h' := Option.some.inj h
        have hl : l = [] := by have := congrArg Prod.fst h'; simpa using this
        have hr : r = [] := by have := congrArg Prod.snd h'; simpa using this
        simp [hs, hl, hr]
      · rw [if_neg hs] at h; exact absurd h (by simp)
  | cons c rest ih =>
      rw [splitOnce_cons] at h
      by_cases hp : sep.isPrefixOf (c :: rest)
      · rw [if_pos hp] at h
        have h' := Option.some.inj h
        have hl : l = [] := by have := congrArg Prod.fst h'; simpa using this
        have hr : r = (c :: rest).drop sep.length := by
          have := congrArg Prod.snd h'; simpa using this.symm
        have hpre : sep <+: (c :: rest) := (List.isPrefixOf_iff_prefix).1 hp
        obtain ⟨t, ht⟩ := hpre
        subst hl
        rw [hr, ← ht]
        simp [List.drop_left]
      · rw [if_neg hp] at h
        cases hsp : splitOnce sep rest with
        | none => rw [hsp] at h; exact absurd h (by simp)
        | some pr =>
            obtain ⟨pre, post⟩ := pr
            rw [hsp, Option.map_some'] at h
            have h' := Option.some.inj h
            have h1 : l = c :: pre := by
              have := congrArg Prod.fst h'; simpa using this.symm
            have h2 : r = post := by
              have := congrArg Prod.snd h'; simpa using this.symm
            subst h1; subst h2
            simp [ih hsp]

theorem splitOnce_isSome_of_occurs {sep b : Bytes} (h : sep <:+: b) :
    (splitOnce sep b).isSome := by
  induction b with
  | nil =>
      rcases h with ⟨s, t, hst⟩
      simp only [List.append_eq_nil] at hst
      simp [splitOnce_nil, hst.1.2]
  | cons c rest ih =>
      by_cases hp : sep.isPrefixOf (c :: rest)
      · simp [splitOnce_cons, hp]
      · have hni : ¬ sep <+: (c :: rest) := by
          intro hc; exact hp ((List.isPrefixOf_iff_prefix).2 hc)
        have hinf : sep <:+: rest := by
          rcases (List.infix_cons_iff).1 h with h1 | h2
          · exact absurd h1 hni
          · exact h2
        have hs := ih hinf
        rw [Option.isSome_iff_exists] at hs
        obtain ⟨pr, hpr⟩ := hs
        rw [splitOnce_cons, if_neg hp, hpr]
        simp

theorem splitOnce_none_of_not_occurs {sep b : Bytes} (h : ¬ sep <:+: b) :
    splitOnce sep b = none := by
  cases hsp : splitOnce sep b with
  | none => rfl
  | some pr =>
      obtain ⟨l, r⟩ := pr
      have hd := splitOnce_some_decomp hsp
      exact absurd ⟨l, r, by rw [hd]⟩ h

theorem occurs_of_splitOnce_isSome {sep b : Bytes}
    (h : (splitOnce sep b).isSome) : sep <:+: b := by
  by_contra hni
  rw [splitOnce_none_of_not_occurs hni] at h
  simp at h

/-- `splitOnce` finds the FIRST occurrence: any other decomposition has
the occurrence no earlier. -/
theorem splitOnce_first {sep b l r : Bytes}
    (h : splitOnce sep b = some (l, r)) :
    ∀ l₂ r₂, b = l₂ ++ sep ++ r₂ → l.length ≤ l₂.length := by
  induction b generalizing l r with
  | nil =>
      intro l₂ r₂ hb
      rw [splitOnce_nil] at h
      by_cases hs : sep = ([] : Bytes)
      · rw [if_pos hs] at h
        have h' := Option.some.inj h
        have hl : l = [] := by have := congrArg Prod.fst h'; simpa using this
        simp [hl]
      · rw [if_neg hs] at h; exact absurd h (by simp)
  | cons c rest ih =>
      intro l₂ r₂ hb
      rw [splitOnce_cons] at h
      by_cases hp : sep.isPrefixOf (c :: rest)
      · rw [if_pos hp] at h
        have h' := Option.some.inj h
        have hl : l = [] := by have := congrArg Prod.fst h'; simpa using this
        simp [hl]
      · rw [if_neg hp] at h
        cases l₂ with
        | nil =>
            exfalso
            apply hp
            refine (List.isPrefixOf_iff_prefix).2 ⟨r₂, ?_⟩
            simpa using hb.symm
        | cons d l₂' =>
            cases hsp : splitOnce sep rest with
            | none => rw [hsp] at h; exact absurd h (by simp)
            | some pr =>
                obtain ⟨pre, post⟩ := pr
                rw [hsp, Option.map_some'] at h
                have h' := Option.some.inj h
                have h1 : l = c :: pre := by
                  have := congrArg Prod.fst h'; simpa using this.symm
                have hb' : rest = l₂' ++ sep ++ r₂ := by
                  have := congrArg List.tail hb
                  simpa using this
                have := ih hsp l₂' r₂ hb'
                simp [h1]
                omega

/-!
## The server model (src/src/server.py)

A connection's inbound data is a `List Bytes`: the chunks returned by the
successive `recv` (threaded runtime) or `reader.read` (async runtime)
calls.  The end of the list, or an empty chunk, is the peer closing the
connection (`recv` returning b"").  Outbound data is accumulated as one
`Bytes` value: the concatenation of all `sendall` / `write` payloads, in
order.
-/

/-- The error taxonomy of src/src/shared/shared.py as raised by the server
handlers, plus the IndexError a bare `LOAD` line triggers through
`parts[1]`.  Each carries the str() of the exception. -/
inductive ServerErr
  | fileNotFound (msg : Bytes)
  | errorDuringUpload (msg : Bytes)
  | peerDisconnected (msg : Bytes)
  | indexError
  deriving DecidableEq

/-- str() of the PeerDisconnected raised when recv returns b"" during an
upload, which `_cmd_load` rewraps in ErrorDuringUpload. -/
def discUploadMsg : Bytes := "Connection lost during upload".data

/-- The wire frame `_dispatch_command` sends for a caught exception:
its FileNotFound / ErrorDuringUpload / PeerDisconnected arms prepend the
class name, the final generic `except Exception` arm sends only str(e)
(for the IndexError of a bare LOAD that is "list index out of range"). -/
def frameOf : ServerErr → Bytes
  | .fileNotFound m => "ERROR FileNotFound ".data ++ m ++ ['\n']
  | .errorDuringUpload m => "ERROR ErrorDuringUpload ".data ++ m ++ ['\n']
  | .peerDisconnected m => "ERROR PeerDisconnected ".data ++ m ++ ['\n']
  | .indexError => "ERROR list index out of range".data ++ ['\n']

/-- Result of the receive loop inside `_cmd_load`: either the sentinel was
found inside the accumulated buffer (upload complete, some chunks may
remain unread), or recv returned b"" first (peer disconnected). -/
inductive LoadRes
  | ok (written : Bytes) (rest : List Bytes)
  | disconnected (written : Bytes)
  deriving DecidableEq

/-- The receive loop of `_cmd_load` (threaded): `buffer += chunk`; if
b"<END>\n" occurs in the buffer, write the part before the first
occurrence and stop, otherwise write the whole buffer and reset it to
b"" before the next recv.  `written` is the file content written so far. -/
def loadLoop : Bytes → Bytes → List Bytes → LoadRes
  | written, _, [] => .disconnected written
  | written, buffer, chunk :: rest =>
      if chunk = [] then .disconnected written
      else
        match splitOnce sentinelB (buffer ++ chunk) with
        | some (content, _) => .ok (written ++ content) rest
        | none => loadLoop (written ++ (buffer ++ chunk)) [] rest

/-- The receive loop of `_cmd_load_async`: identical except that there is
no accumulation buffer at all — the sentinel test is `in chunk`. -/
def loadLoopAsync : Bytes → List Bytes → LoadRes
  | written, [] => .disconnected written
  | written, chunk :: rest =>
      if chunk = [] then .disconnected written
      else
        match splitOnce sentinelB chunk with
        | some (content, _) => .ok (written ++ content) rest
        | none => loadLoopAsync (written ++ chunk) rest

/-- What a handler leaves behind: bytes written to the peer, the storage
after the handler ran, the chunks of inbound data it did not consume, and
the exception it raised, if any (the bytes written before the raise are
still on the wire). -/
structure HandlerOut where
  out : Bytes
  st : Storage
  input : List Bytes
  err : Option ServerErr
  deriving DecidableEq

/-- `READY\n`, the upload acknowledgement. -/
def readyB : Bytes := "READY\n".data

/-- `_cmd_load`: send `READY\n`, open the target file (creating or
truncating it — so on disconnection the partial content is still stored),
run the receive loop; a disconnection is rewrapped as ErrorDuringUpload
and raised to the dispatcher.  After a disconnect no further chunks can
be received, so the remaining input is empty. -/
def cmd_load (st : Storage) (filename : Bytes) (input : List Bytes) : HandlerOut :=
  match loadLoop [] [] input with
  | .ok written rest =>
      ⟨readyB, storageInsert st filename written, rest, none⟩
  | .disconnected written =>
      ⟨readyB, storageInsert st filename written, [],
        some (.errorDuringUpload discUploadMsg)⟩

/-- `_cmd_load_async`: as `cmd_load` but with the bufferless loop. -/
def cmd_load_async (st : Storage) (filename : Bytes) (input : List Bytes) : HandlerOut :=
  match loadLoopAsync [] input with
  | .ok written rest =>
      ⟨readyB, storageInsert st filename written, rest, none⟩
  | .disconnected written =>
      ⟨readyB, storageInsert st filename written, [],
        some (.errorDuringUpload discUploadMsg)⟩

/-- The `READY <size>\n` line of `_cmd_get_file`. -/
def readySizeLine (n : Nat) : Bytes := "READY ".data ++ natToBytes n ++ ['\n']

/-- `_cmd_get_file`: if the name is absent send exactly
`ERROR FileNotFound <name>\n` and return; otherwise send
`READY <size>\n`, the file in f.read(4096) chunks, then b"<END>\n".
The storage is returned unchanged in both cases. -/
def cmd_get_file (st : Storage) (filename : Bytes) : Bytes × Storage :=
  match storageLookup st filename with
  | none => ("ERROR FileNotFound ".data ++ filename ++ ['\n'], st)
  | some content =>
      (readySizeLine content.length
        ++ (chunks4096 content).foldr (fun a b => a ++ b) []
        ++ sentinelB, st)

/-- `_cmd_get_file_async`: byte-for-byte the same responses as
`_cmd_get_file` (writer.write/drain instead of sendall). -/
def cmd_get_file_async (st : Storage) (filename : Bytes) : Bytes × Storage :=
  match storageLookup st filename with
  | none => ("ERROR FileNotFound ".data ++ filename ++ ['\n'], st)
  | some content =>
      (readySizeLine content.length
        ++ (chunks4096 content).foldr (fun a b => a ++ b) []
        ++ sentinelB, st)

/-!
### The listing handler and its regex

`_cmd_get_files` compiles `".*"` when the upper-cased pattern is `ALL`,
else `"^" + pattern.replace("*", ".*") + "$"`, and keeps the names on
which `regex.match` succeeds.  Only `*` is replaced; every other
character keeps its REGEX meaning, so `.` matches any single character.
The embedding covers patterns built from `*`, `.` and characters that are
regex-literal; a pattern containing another regex metacharacter is outside
the modelled fragment (`translatePattern` returns `none`).
-/

/-- One atom of the compiled regex: a literal character, `.`, or `.*`. -/
inductive Ratom
  | lit (c : Char)
  | dot
  | dotStar
  deriving DecidableEq

/-- Regex metacharacters (other than `*` and `.`) that
`pattern.replace("*", ".*")` would pass through with non-literal
meaning; patterns containing them are outside the modelled fragment. -/
def regexMeta (c : Char) : Bool :=
  c = '+' || c = '?' || c = '(' || c = ')' || c = '[' || c = ']' ||
  c = '\x7b' || c = '\x7d' || c = '^' || c = '$' || c = '\\' || c = '|'

/-- The body of the compiled regex `^ body $` for a non-ALL pattern:
`*` becomes `.*`, `.` stays the regex any-character dot, every other
non-metacharacter is literal. -/
def translatePattern : Bytes → Option (List Ratom)
  | [] => some []
  | c :: rest =>
      if c = '*' then (translatePattern rest).map (fun r => Ratom.dotStar :: r)
      else if c = '.' then (translatePattern rest).map (fun r => Ratom.dot :: r)
      else if regexMeta c then none
      else (translatePattern rest).map (fun r => Ratom.lit c :: r)

/-- Full-string regex matching: the effect of `re.match` on a regex of
the form `^ body $` (the anchors make it match the whole name). -/
def rmatch : List Ratom → Bytes → Bool
  | [], s => s.isEmpty
  | .lit _ :: _, [] => false
  | .lit c :: rs, x :: xs => x = c && rmatch rs xs
  | .dot :: _, [] => false
  | .dot :: rs, _ :: xs => rmatch rs xs
  | .dotStar :: rs, s => s.tails.any (fun t => rmatch rs t)

/-- Unanchored-at-the-end matching: the effect of `re.match` on the
`".*"` regex compiled for the ALL pattern (a match may leave a tail). -/
def rmatchStart : List Ratom → Bytes → Bool
  | [], _ => true
  | .lit _ :: _, [] => false
  | .lit c :: rs, x :: xs => x = c && rmatchStart rs xs
  | .dot :: _, [] => false
  | .dot :: rs, _ :: xs => rmatchStart rs xs
  | .dotStar :: rs, s => s.tails.any (fun t => rmatchStart rs t)

/-- `_cmd_get_files`: filter the storage names by the compiled regex and
send them newline-joined with a trailing newline.  `none` when the
pattern is outside the modelled regex fragment. -/
def cmd_get_files (st : Storage) (pat : Bytes) : Option Bytes :=
  if asciiUpperB pat = "ALL".data then
    some (List.intercalate ['\n']
        ((storageNames st).filter (fun f => rmatchStart [Ratom.dotStar] f))
      ++ ['\n'])
  else
    (translatePattern pat).map (fun r =>
      List.intercalate ['\n'] ((storageNames st).filter (fun f => rmatch r f))
        ++ ['\n'])

/-- `_cmd_get_files_async`: identical responses. -/
def cmd_get_files_async (st : Storage) (pat : Bytes) : Option Bytes :=
  cmd_get_files st pat

/-- The spec's reading of a listing pattern (§4.5): `*` is the only
wildcard and every other character matches itself literally.
Modelled from the spec for comparison against the code's regex. -/
def specGlobAtoms : Bytes → List Ratom
  | [] => []
  | c :: rest =>
      (if c = '*' then Ratom.dotStar else Ratom.lit c) :: specGlobAtoms rest

/-- Anchored whole-name matching under the spec's literal reading. -/
def specGlobMatch (pat name : Bytes) : Bool := rmatch (specGlobAtoms pat) name

/-- `_dispatch_command` (threaded): split the line, select on the
upper-cased first token, run the handler inside try/except; a raised
error is serialized as a frame and the dispatcher returns normally, so
the connection loop continues.  `none` when the behaviour involves a
listing pattern outside the modelled regex fragment. -/
def dispatch_command (st : Storage) (line : Bytes) (input : List Bytes) :
    Option (Bytes × Storage × List Bytes) :=
  match pySplit line with
  | [] => some ([], st, input)
  | tok :: rest =>
      if asciiUpperB tok = "LOAD".data then
        match rest with
        | [] => some (frameOf ServerErr.indexError, st, input)
        | f :: _ =>
            match cmd_load st f input with
            | ⟨o, st', input', none⟩ => some (o, st', input')
            | ⟨o, st', input', some e⟩ => some (o ++ frameOf e, st', input')
      else if asciiUpperB tok = "GET".data ∧ (tok :: rest).length ≥ 3 then
        match rest with
        | sub :: arg :: _ =>
            if asciiUpperB sub = "FILE".data then
              some ((cmd_get_file st arg).1, (cmd_get_file st arg).2, input)
            else if asciiUpperB sub = "FILES".data then
              (cmd_get_files st arg).map (fun o => (o, st, input))
            else
              some ("ERROR Unknown GET subcommand\n".data, st, input)
        | _ => some ("ERROR Unknown command\n".data, st, input)
      else
        some ("ERROR Unknown command\n".data, st, input)

/-- `_dispatch_command_async`: same selection but with NO try/except —
a handler exception escapes through `err`; an empty line falls into the
final else and gets `ERROR Unknown command\n`; a GET with an unknown
subcommand sends nothing at all (the inner if/elif has no else). -/
def dispatch_command_async (st : Storage) (line : Bytes) (input : List Bytes) :
    Option HandlerOut :=
  match pySplit line with
  | [] => some ⟨"ERROR Unknown command\n".data, st, input, none⟩
  | tok :: rest =>
      if asciiUpperB tok = "LOAD".data then
        match rest with
        | [] => some ⟨[], st, input, some ServerErr.indexError⟩
        | f :: _ => some (cmd_load_async st f input)
      else if asciiUpperB tok = "GET".data ∧ (tok :: rest).length ≥ 3 then
        match rest with
        | sub :: arg :: _ =>
            if asciiUpperB sub = "FILE".data then
              some ⟨(cmd_get_file_async st arg).1, (cmd_get_file_async st arg).2,
                input, none⟩
            else if asciiUpperB sub = "FILES".data then
              (cmd_get_files_async st arg).map (fun o => ⟨o, st, input, none⟩)
            else
              some ⟨[], st, input, none⟩
        | _ => some ⟨"ERROR Unknown command\n".data, st, input, none⟩
      else
        some ⟨"ERROR Unknown command\n".data, st, input, none⟩

/-- `_handle_client` (threaded): recv into a buffer; whenever the buffer
holds a b"\n", split off one line and dispatch it (the dispatcher may
itself consume further chunks during an upload, but the already-buffered
bytes stay in the line buffer); recv returning b"" ends the loop.  `fuel`
bounds the number of loop iterations; `none` means fuel ran out or a
dispatch left the modelled fragment. -/
def handle_client : Nat → Storage → Bytes → List Bytes → Bytes →
    Option (Bytes × Storage)
  | 0, _, _, _, _ => none
  | fuel + 1, st, buffer, input, out =>
      match splitOnce ['\n'] buffer with
      | some (line, buffer') =>
          match dispatch_command st (pyStrip line) input with
          | none => none
          | some (o, st', input') =>
              handle_client fuel st' buffer' input' (out ++ o)
      | none =>
          match input with
          | [] => some (out, st)
          | data :: rest =>
              if data = [] then some (out, st)
              else handle_client fuel st (buffer ++ data) rest out

/-- One readline on the async stream reader: take bytes from the pending
chunks up to and including the first b"\n"; at end of stream return the
(possibly empty) remainder without a newline, exactly as asyncio's
StreamReader.readline does at EOF. -/
def areadline : List Bytes → Bytes × List Bytes
  | [] => ([], [])
  | s :: ss =>
      match splitOnce ['\n'] s with
      | some (l, rest) =>
          (l ++ ['\n'], if rest = [] then ss else rest :: ss)
      | none =>
          let r := areadline ss
          (s ++ r.1, r.2)

/-- `_handle_client_async`: readline, dispatch; an exception raised by a
handler escapes the dispatcher, is caught by the connection-level
`except Exception`, and the connection is closed — no error frame is
written.  The returned Bool is true when the loop terminated (EOF or
exception), false when fuel ran out or a dispatch left the modelled
fragment. -/
def handle_client_async : Nat → Storage → List Bytes → Bytes →
    Bytes × Storage × Bool
  | 0, st, _, out => (out, st, false)
  | fuel + 1, st, input, out =>
      match input with
      | [] => (out, st, true)
      | _ :: _ =>
          match areadline input with
          | (data, remaining) =>
              if data = [] then (out, st, true)
              else
                match dispatch_command_async st (pyStrip data) remaining with
                | none => (out, st, false)
                | some ⟨o, st', input', some _⟩ => (out ++ o, st', true)
                | some ⟨o, st', input', none⟩ =>
                    handle_client_async fuel st' input' (out ++ o)

/-!
## The client model (src/client.py)

`upload` and `download` are modelled per call, with the server's
responses supplied as the chunks the client's recv calls return.
-/

/-- The client-side error taxonomy (shared.py), carrying str() of the
exception.  `none` in the results below means the Python call returned
normally. -/
inductive ClientErr
  | fileNotFound (msg : Bytes)
  | errorDuringUpload (msg : Bytes)
  | errorDuringDownload (msg : Bytes)
  | peerDisconnected (msg : Bytes)
  deriving DecidableEq

/-- What one `FileClient.upload` call put on the wire and whether it
raised: `sent` lists the sendall payloads in order. -/
structure UploadRun where
  sent : List Bytes
  raised : Option ClientErr
  deriving DecidableEq

/-- The `LOAD <label> <flag>\n` command line `upload` sends with
compress=False: note the trailing space left by the empty flag in
f-string interpolation. -/
def loadCmdLine (label : Bytes) : Bytes := "LOAD ".data ++ label ++ [' ', '\n']

/-- `FileClient.upload` (connected, local file present, compress=False):
send the LOAD line; read one response; if its stripped text is not
exactly "READY", log and RETURN — no exception, nothing else sent;
otherwise stream the file in 4096-byte chunks and send b"<END>\n". -/
def upload (content label response : Bytes) : UploadRun :=
  if pyStrip response = "READY".data then
    ⟨loadCmdLine label :: chunks4096 content ++ [sentinelB], none⟩
  else
    ⟨[loadCmdLine label], none⟩

/-- The body-receive loop of `FileClient.download`: read
min(4096, total-received) bytes at a time from the remaining stream until
`total` bytes have arrived; an empty read raises PeerDisconnected.
Returns the received bytes and the unread remainder of the stream. -/
def downloadLoop (rem : Nat) (s : Bytes) : Option (Bytes × Bytes) :=
  if h0 : rem = 0 then some ([], s)
  else
    if hc : s.take (min 4096 rem) = [] then none
    else
      match downloadLoop (rem - (s.take (min 4096 rem)).length)
          (s.drop (s.take (min 4096 rem)).length) with
      | some (data, rest) => some (s.take (min 4096 rem) ++ data, rest)
      | none => none
  termination_by rem
  decreasing_by
    have hlen : 0 < (s.take (min 4096 rem)).length := List.length_pos.2 hc
    omega

/-- `FileClient.download` after sending `GET FILE <name>\n`: parse the
first recv as the status line; an ERROR-prefixed line raises
FileNotFound(line); anything but a two-token `READY <n>` line raises
ErrorDuringDownload; then receive exactly n bytes from the rest of the
stream.  Returns the bytes written to the local file on success. -/
def download (firstRecv restStream : Bytes) : Except ClientErr Bytes :=
  if "ERROR".data.isPrefixOf (pyStrip firstRecv) then
    .error (.fileNotFound (pyStrip firstRecv))
  else
    match pySplit (pyStrip firstRecv) with
    | [p0, p1] =>
        if p0 = "READY".data then
          match parseNat p1 with
          | some total =>
              match downloadLoop total restStream with
              | some (data, _) => .ok data
              | none => .error (.peerDisconnected
                  "Connection lost during download".data)
          | none => .error (.errorDuringDownload
              "invalid literal for int".data)
        else .error (.errorDuringDownload
            ("Unexpected response from server: ".data ++ pyStrip firstRecv))
    | [] => .error (.errorDuringDownload "list index out of range".data)
    | _ => .error (.errorDuringDownload
        ("Unexpected response from server: ".data ++ pyStrip firstRecv))

/-!
## Supporting lemmas
-/

/-- Concatenation of a chunk list (what the successive writes of a
receive or send loop amount to). -/
def joinB (l : List Bytes) : Bytes := l.foldr (fun a b => a ++ b) []

theorem joinB_nil : joinB [] = [] := rfl

theorem joinB_cons (c : Bytes) (l : List Bytes) :
    joinB (c :: l) = c ++ joinB l := rfl

theorem joinB_append (l₁ l₂ : List Bytes) :
    joinB (l₁ ++ l₂) = joinB l₁ ++ joinB l₂ := by
  induction l₁ with
  | nil => simp [joinB]
  | cons c t ih => simp [joinB_cons, ih]

theorem chunks4096_nil : chunks4096 [] = [] := by simp [chunks4096]

theorem chunks4096_ne_nil_eq {b : Bytes} (h : b ≠ []) :
    chunks4096 b = b.take 4096 :: chunks4096 (b.drop 4096) := by
  cases b with
  | nil => exact absurd rfl h
  | cons c rest => simp [chunks4096]

theorem joinB_chunks4096 (b : Bytes) : joinB (chunks4096 b) = b := by
  generalize hn : b.length = n
  induction n using Nat.strong_induction_on generalizing b with
  | _ n ih =>
      cases b with
      | nil => simp [chunks4096_nil, joinB_nil]
      | cons c rest =>
          rw [chunks4096_ne_nil_eq (by simp), joinB_cons]
          have hlt : ((c :: rest).drop 4096).length < n := by
            rw [← hn]; simp [List.length_drop]; omega
          rw [ih _ hlt _ rfl, List.take_append_drop]

theorem chunks4096_mem :
    ∀ (n : Nat) (b : Bytes), b.length ≤ n →
      ∀ ch ∈ chunks4096 b, ch ≠ [] ∧ ch <:+: b := by
  intro n
  induction n with
  | zero =>
      intro b hb ch hch
      have : b = [] := List.eq_nil_of_length_eq_zero (Nat.le_zero.1 hb)
      subst this
      simp [chunks4096_nil] at hch
  | succ n ih =>
      intro b hb ch hch
      cases b with
      | nil => simp [chunks4096_nil] at hch
      | cons c rest =>
          rw [chunks4096_ne_nil_eq (by simp)] at hch
          rcases List.mem_cons.1 hch with h1 | h2
          · subst h1
            refine ⟨by simp, ?_⟩
            exact (List.take_prefix 4096 (c :: rest)).isInfix
          · have hlen : ((c :: rest).drop 4096).length ≤ n := by
              simp [List.length_drop] at hb ⊢; omega
            obtain ⟨hne, hinf⟩ := ih _ hlen ch h2
            exact ⟨hne, hinf.trans (List.drop_suffix 4096 (c :: rest)).isInfix⟩

theorem chunks4096_ne_nil {b : Bytes} :
    ∀ ch ∈ chunks4096 b, ch ≠ [] :=
  fun ch h => (chunks4096_mem b.length b le_rfl ch h).1

theorem chunks4096_within {b : Bytes} :
    ∀ ch ∈ chunks4096 b, ch <:+: b :=
  fun ch h => (chunks4096_mem b.length b le_rfl ch h).2

theorem chunks4096_small {b : Bytes} (h : b ≠ []) (hl : b.length ≤ 4096) :
    chunks4096 b = [b] := by
  rw [chunks4096_ne_nil_eq h, List.take_of_length_le hl,
    List.drop_of_length_le hl, chunks4096_nil]

/-- Two prefixes of one list are comparable; the shorter one is a
prefix of the longer one. -/
theorem prefix_of_length_le {α : Type} {p q b : List α}
    (hp : p <+: b) (hq : q <+: b) (h : p.length ≤ q.length) : p <+: q := by
  rw [List.prefix_iff_eq_take] at hp hq
  rw [List.prefix_iff_eq_take, hq, List.take_take, Nat.min_eq_left h]
  exact hp

/-- A chunk sentinel-free whenever the whole content is: the sentinel
occurs in no infix of a sentinel-free byte string. -/
theorem splitOnce_none_within {content ch : Bytes}
    (h : splitOnce sentinelB content = none) (hinf : ch <:+: content) :
    splitOnce sentinelB ch = none := by
  apply splitOnce_none_of_not_occurs
  intro hs
  have : (splitOnce sentinelB content).isSome :=
    splitOnce_isSome_of_occurs (hs.trans hinf)
  rw [h] at this
  exact absurd this (by simp)

theorem loadLoop_eq_async (w : Bytes) (cs : List Bytes) :
    loadLoop w [] cs = loadLoopAsync w cs := by
  induction cs generalizing w with
  | nil => rfl
  | cons c rest ih =>
      by_cases hc : c = ([] : Bytes)
      · simp [loadLoop, loadLoopAsync, hc]
      · simp only [loadLoop, loadLoopAsync, if_neg hc, List.nil_append]
        cases splitOnce sentinelB c with
        | none => exact ih (w ++ c)
        | some pr => rfl

/-- A clean upload: every content chunk is sentinel-free and non-empty
and the sentinel then arrives in a chunk of its own; everything is
written and the loop stops at the sentinel chunk. -/
theorem loadLoop_clean {cs : List Bytes}
    (h : ∀ c ∈ cs, splitOnce sentinelB c = none ∧ c ≠ []) (w : Bytes) :
    loadLoop w [] (cs ++ [sentinelB]) = .ok (w ++ joinB cs) [] := by
  induction cs generalizing w with
  | nil =>
      have hsent : splitOnce sentinelB (([] : Bytes) ++ sentinelB)
          = some ([], []) := by decide
      simp only [List.nil_append, loadLoop]
      rw [if_neg (by decide : ¬ (sentinelB = ([] : Bytes)))]
      rw [List.nil_append] at hsent
      rw [hsent]
      simp [joinB_nil]
  | cons c rest ih =>
      obtain ⟨hno, hne⟩ := h c (by simp)
      simp only [List.cons_append, loadLoop, if_neg hne, List.nil_append, hno,
        List.append_eq]
      rw [ih (fun x hx => h x (by simp [hx])) (w ++ c)]
      simp [joinB_cons]

/-- The file content a load loop ends up writing, successful or not. -/
def resWritten : LoadRes → Bytes
  | .ok w _ => w
  | .disconnected w => w

/-- Whatever happens, the loop only appends to the already-written
content. -/
theorem loadLoop_written_shape (cs : List Bytes) (w : Bytes) :
    ∃ t, resWritten (loadLoop w [] cs) = w ++ t := by
  induction cs generalizing w with
  | nil => exact ⟨[], by simp [loadLoop, resWritten]⟩
  | cons c rest ih =>
      by_cases hc : c = ([] : Bytes)
      · exact ⟨[], by simp [loadLoop, hc, resWritten]⟩
      · simp only [loadLoop, if_neg hc, List.nil_append]
        cases hsp : splitOnce sentinelB c with
        | none =>
            obtain ⟨t, ht⟩ := ih (w ++ c)
            exact ⟨c ++ t, by rw [ht]; simp⟩
        | some pr => exact ⟨pr.1, by simp [resWritten]⟩

/-- In-chunk termination of the threaded upload loop: sentinel-free
non-empty chunks are written whole; the first chunk that contains the
whole sentinel ends the upload with the part of that chunk before its
first sentinel occurrence, and the chunks after it stay unread. -/
theorem loadLoop_inchunk {u : List Bytes}
    (hu : ∀ x ∈ u, splitOnce sentinelB x = none ∧ x ≠ [])
    {c cpre ctail : Bytes} (hc : splitOnce sentinelB c = some (cpre, ctail))
    (hcne : c ≠ []) (v : List Bytes) (w : Bytes) :
    loadLoop w [] (u ++ c :: v) = .ok (w ++ (joinB u ++ cpre)) v := by
  induction u generalizing w with
  | nil =>
      simp only [List.nil_append, loadLoop, if_neg hcne, hc]
      simp [joinB_nil]
  | cons x u' ih =>
      obtain ⟨hno, hne⟩ := hu x (by simp)
      simp only [List.cons_append, loadLoop, if_neg hne, List.nil_append, hno,
        List.append_eq]
      rw [ih (fun y hy => hu y (by simp [hy])) (w ++ x)]
      simp [joinB_cons]

/-- Everything in the stream before the first sentinel occurrence is
written as file content by the threaded upload loop, whichever way the
stream is grouped into non-empty chunks (if the occurrence is split
across chunks the loop writes even more, sentinel bytes included). -/
theorem loadLoop_written_extends {cs : List Bytes}
    (hne : ∀ c ∈ cs, c ≠ []) {pre rest : Bytes}
    (h : splitOnce sentinelB (joinB cs) = some (pre, rest)) (w : Bytes) :
    ∃ t, resWritten (loadLoop w [] cs) = w ++ t ∧ pre <+: t := by
  induction cs generalizing pre rest w with
  | nil =>
      rw [joinB_nil, splitOnce_nil_of_ne (by decide)] at h
      exact absurd h (by simp)
  | cons c cs' ih =>
      have hcne : c ≠ [] := hne c (by simp)
      have hpre_all : pre <+: joinB (c :: cs') := by
        rw [splitOnce_some_decomp h, List.append_assoc]
        exact List.prefix_append pre (sentinelB ++ rest)
      have hc_all : c <+: joinB (c :: cs') := by
        rw [joinB_cons]; exact List.prefix_append c (joinB cs')
      simp only [loadLoop, if_neg hcne, List.nil_append]
      cases hsp : splitOnce sentinelB c with
      | some pr =>
          obtain ⟨cpre, cpost⟩ := pr
          refine ⟨cpre, by simp [resWritten], ?_⟩
          have hdc : c = cpre ++ sentinelB ++ cpost := splitOnce_some_decomp hsp
          have hdecomp : joinB (c :: cs') = cpre ++ sentinelB ++ (cpost ++ joinB cs') := by
            rw [joinB_cons, hdc]; simp
          have hlen : pre.length ≤ cpre.length :=
            splitOnce_first h cpre (cpost ++ joinB cs') hdecomp
          have hcpre_all : cpre <+: joinB (c :: cs') := by
            rw [hdecomp, List.append_assoc]
            exact List.prefix_append cpre (sentinelB ++ (cpost ++ joinB cs'))
          exact prefix_of_length_le hpre_all hcpre_all hlen
      | none =>
          by_cases hlen : c.length ≤ pre.length
          · -- the first occurrence lies beyond this chunk
            have hcp : c <+: pre := prefix_of_length_le hc_all hpre_all hlen
            obtain ⟨pre', hpre'⟩ := hcp
            have htail : joinB cs' = pre' ++ sentinelB ++ rest := by
              have hd := splitOnce_some_decomp h
              rw [joinB_cons, ← hpre'] at hd
              have hd2 : c ++ joinB cs' = c ++ (pre' ++ sentinelB ++ rest) := by
                rw [hd]; simp [List.append_assoc]
              exact List.append_cancel_left hd2
            have hsome : (splitOnce sentinelB (joinB cs')).isSome := by
              apply splitOnce_isSome_of_occurs
              exact ⟨pre', rest, by rw [htail]⟩
            rw [Option.isSome_iff_exists] at hsome
            obtain ⟨⟨l', r'⟩, hl'⟩ := hsome
            have hfirst1 : l'.length ≤ pre'.length :=
              splitOnce_first hl' pre' rest htail
            have hfirst2 : pre'.length ≤ l'.length := by
              have hd' := splitOnce_some_decomp hl'
              have : joinB (c :: cs') = (c ++ l') ++ sentinelB ++ r' := by
                rw [joinB_cons, hd']; simp
              have := splitOnce_first h (c ++ l') r' this
              rw [← hpre'] at this
              simp at this
              omega
            have hll : l' = pre' := by
              have hlp : l' <+: joinB cs' := by
                rw [splitOnce_some_decomp hl', List.append_assoc]
                exact List.prefix_append l' (sentinelB ++ r')
              have hpp : pre' <+: joinB cs' := by
                rw [htail, List.append_assoc]
                exact List.prefix_append pre' (sentinelB ++ rest)
              exact (prefix_of_length_le hlp hpp hfirst1).eq_of_length (by omega)
            have hrr : r' = rest := by
              have hd' := splitOnce_some_decomp hl'
              rw [hll] at hd'
              have heq : (pre' ++ sentinelB) ++ r' = (pre' ++ sentinelB) ++ rest := by
                have := hd'.symm.trans htail
                simpa [List.append_assoc] using this
              exact List.append_cancel_left heq
            obtain ⟨t', ht', hp'⟩ :=
              ih (fun x hx => hne x (by simp [hx])) (by rw [hll, hrr] at hl'; exact hl')
              (w ++ c)
            refine ⟨c ++ t', by rw [ht']; simp, ?_⟩
            rw [← hpre']
            obtain ⟨u', hu'⟩ := hp'
            exact ⟨u', by rw [← hu']; simp⟩
          · -- the first occurrence starts inside this chunk (split across
            -- the boundary, since the chunk itself is sentinel-free)
            have hcp : pre <+: c :=
              prefix_of_length_le hpre_all hc_all (by omega)
            obtain ⟨t', ht'⟩ := loadLoop_written_shape cs' (w ++ c)
            refine ⟨c ++ t', by rw [ht']; simp, ?_⟩
            obtain ⟨u', hu'⟩ := hcp
            exact ⟨u' ++ t', by rw [← hu']; simp⟩

theorem pySplitAux_nonspace {w : Bytes} (h : ∀ c ∈ w, pySpace c = false) :
    ∀ acc, pySplitAux w acc =
      if acc.reverse ++ w = [] then [] else [acc.reverse ++ w] := by
  induction w with
  | nil =>
      intro acc
      simp only [pySplitAux, List.append_nil]
      by_cases ha : acc = ([] : Bytes) <;> simp [ha]
  | cons c rest ih =>
      intro acc
      have hc : pySpace c = false := h c (by simp)
      simp only [pySplitAux, hc, Bool.false_eq_true, if_false]
      rw [ih (fun x hx => h x (by simp [hx])) (c :: acc)]
      simp

theorem pySplitAux_word {w : Bytes} (hw : ∀ c ∈ w, pySpace c = false) {s : Char}
    (hs : pySpace s = true) (rest : Bytes) :
    ∀ acc, (acc ≠ [] ∨ w ≠ []) →
      pySplitAux (w ++ s :: rest) acc =
        (acc.reverse ++ w) :: pySplitAux rest [] := by
  induction w with
  | nil =>
      intro acc hne
      have hacc : acc ≠ [] := by
        rcases hne with h1 | h2
        · exact h1
        · exact absurd rfl h2
      simp only [List.nil_append, pySplitAux, hs, if_true, hacc, if_neg hacc]
      simp
  | cons c w' ih =>
      intro acc _
      have hc : pySpace c = false := hw c (by simp)
      simp only [List.cons_append, pySplitAux, hc, Bool.false_eq_true, if_false,
        List.append_eq]
      rw [ih (fun x hx => hw x (by simp [hx])) (c :: acc) (Or.inl (by simp))]
      simp

/-- A whitespace-free word followed by one space splits off as one
token. -/
theorem pySplit_word_space {w : Bytes} (hw : ∀ c ∈ w, pySpace c = false)
    (hne : w ≠ []) {s : Char} (hs : pySpace s = true) (rest : Bytes) :
    pySplit (w ++ s :: rest) = w :: pySplit rest := by
  rw [pySplit, pySplitAux_word hw hs rest [] (Or.inr hne)]
  simp [pySplit]

/-- A non-empty whitespace-free byte string is one token. -/
theorem pySplit_word {w : Bytes} (hw : ∀ c ∈ w, pySpace c = false)
    (hne : w ≠ []) : pySplit w = [w] := by
  rw [pySplit, pySplitAux_nonspace hw []]
  simp [hne]

theorem dropWhile_append_of_all {p : Char → Bool} {a : Bytes}
    (h : ∀ c ∈ a, p c = true) (b : Bytes) :
    (a ++ b).dropWhile p = b.dropWhile p := by
  induction a with
  | nil => simp
  | cons c t ih =>
      have hc := h c (by simp)
      simp only [List.cons_append, List.dropWhile_cons, hc, if_true]
      exact ih (fun x hx => h x (by simp [hx]))

theorem dropWhile_eq_nil_of_all {p : Char → Bool} {a : Bytes}
    (h : ∀ c ∈ a, p c = true) : a.dropWhile p = [] := by
  have := dropWhile_append_of_all h ([] : Bytes)
  simpa using this

/-- Appending trailing whitespace does not change the stripped string. -/
theorem pyStrip_append_spaces {b t : Bytes} (ht : ∀ c ∈ t, pySpace c = true) :
    pyStrip (b ++ t) = pyStrip b := by
  rw [pyStrip, pyStrip]
  cases hdw : b.dropWhile pySpace with
  | nil =>
      have hl : (b ++ t).dropWhile pySpace = [] := by
        rw [List.dropWhile_append, hdw]
        simp [dropWhile_eq_nil_of_all ht]
      rw [hl]
  | cons c rest =>
      have hl : (b ++ t).dropWhile pySpace = c :: rest ++ t := by
        rw [List.dropWhile_append, hdw]
        simp
      rw [hl]
      rw [show ((c :: rest ++ t) : Bytes).reverse
          = t.reverse ++ (c :: rest).reverse from by simp]
      rw [dropWhile_append_of_all (fun x hx => ht x (by simpa using hx))]

/-- A string whose first and last characters are not whitespace strips
to itself. -/
theorem pyStrip_eq_self {b : Bytes}
    (h1 : ∀ c, b.head? = some c → pySpace c = false)
    (h2 : ∀ c, b.getLast? = some c → pySpace c = false) :
    pyStrip b = b := by
  cases hb : b with
  | nil => simp [pyStrip]
  | cons c rest =>
      rw [pyStrip]
      have hc : pySpace c = false := h1 c (by rw [hb]; rfl)
      have hfront : (c :: rest).dropWhile pySpace = c :: rest := by
        simp [List.dropWhile_cons, hc]
      rw [hfront]
      have hlast : ∀ d, (c :: rest).reverse.head? = some d → pySpace d = false := by
        intro d hd
        rw [List.head?_reverse] at hd
        exact h2 d (by rw [hb]; exact hd)
      cases hrev : (c :: rest).reverse with
      | nil => simp at hrev
      | cons d drest =>
          have hd : pySpace d = false := hlast d (by rw [hrev]; rfl)
          simp only [List.dropWhile_cons, hd, Bool.false_eq_true, if_false]
          rw [← hrev, List.reverse_reverse]

/-- The ten digit characters are digits, decode back to their value, and
are not whitespace. -/
theorem digitChar_facts : ∀ d < 10, (Nat.digitChar d).isDigit = true ∧
    (Nat.digitChar d).toNat - 48 = d ∧ pySpace (Nat.digitChar d) = false := by
  decide

theorem parseNatAux_digits {L : Bytes} (h : ∀ c ∈ L, c.isDigit = true) :
    ∀ acc, parseNatAux L acc =
      some (L.foldl (fun a c => a * 10 + (c.toNat - 48)) acc) := by
  induction L with
  | nil => intro acc; simp [parseNatAux]
  | cons c rest ih =>
      intro acc
      have hc := h c (by simp)
      simp only [parseNatAux, hc, if_true, List.foldl_cons]
      exact ih (fun x hx => h x (by simp [hx])) _

theorem foldl_digitChar {ds : List Nat} (h : ∀ d ∈ ds, d < 10) :
    ∀ a, (ds.map Nat.digitChar).foldl (fun a c => a * 10 + (c.toNat - 48)) a
      = ds.foldl (fun a d => a * 10 + d) a := by
  induction ds with
  | nil => intro a; simp
  | cons d rest ih =>
      intro a
      have hd := (digitChar_facts d (h d (by simp))).2.1
      simp only [List.map_cons, List.foldl_cons, hd]
      exact ih (fun x hx => h x (by simp [hx])) _

theorem foldl_base10 (ds : List Nat) :
    ds.reverse.foldl (fun a d => a * 10 + d) 0 = Nat.ofDigits 10 ds := by
  rw [List.foldl_reverse]
  induction ds with
  | nil => simp [Nat.ofDigits]
  | cons d rest ih =>
      rw [List.foldr_cons, Nat.ofDigits_cons, ih]
      ring

/-- Python round-trip: int(str(n)) = n for the sizes on the READY line. -/
theorem parseNat_natToBytes (n : Nat) : parseNat (natToBytes n) = some n := by
  by_cases h0 : n = 0
  · subst h0; decide
  · have hds : ∀ d ∈ Nat.digits 10 n, d < 10 :=
      fun d hd => Nat.digits_lt_base (by omega) hd
    have hne : Nat.digits 10 n ≠ [] := Nat.digits_ne_nil_iff_ne_zero.2 h0
    rw [natToBytes, if_neg h0, parseNat]
    rw [if_neg (by simpa using hne)]
    rw [show ((Nat.digits 10 n).map Nat.digitChar).reverse
        = (Nat.digits 10 n).reverse.map Nat.digitChar from by
      rw [List.map_reverse]]
    rw [parseNatAux_digits (by
      intro c hc
      rw [List.mem_map] at hc
      obtain ⟨d, hd, hdc⟩ := hc
      rw [List.mem_reverse] at hd
      rw [← hdc]
      exact (digitChar_facts d (hds d hd)).1)]
    rw [foldl_digitChar (by
      intro d hd
      rw [List.mem_reverse] at hd
      exact hds d hd)]
    rw [foldl_base10, Nat.ofDigits_digits]

theorem natToBytes_ne_nil (n : Nat) : natToBytes n ≠ [] := by
  by_cases h0 : n = 0
  · subst h0; decide
  · rw [natToBytes, if_neg h0]
    simpa using Nat.digits_ne_nil_iff_ne_zero.2 h0

theorem natToBytes_nonspace (n : Nat) :
    ∀ c ∈ natToBytes n, pySpace c = false := by
  by_cases h0 : n = 0
  · subst h0; decide
  · rw [natToBytes, if_neg h0]
    intro c hc
    rw [List.mem_reverse, List.mem_map] at hc
    obtain ⟨d, hd, hdc⟩ := hc
    rw [← hdc]
    exact (digitChar_facts d (Nat.digits_lt_base (by omega) hd)).2.2

/-- The client's body loop receives exactly `rem` bytes when the stream
holds at least that many, leaving the rest unread. -/
theorem downloadLoop_spec :
    ∀ (rem : Nat) (s : Bytes), rem ≤ s.length →
      downloadLoop rem s = some (s.take rem, s.drop rem) := by
  intro rem
  induction rem using Nat.strong_induction_on with
  | _ rem ih =>
      intro s hle
      rw [downloadLoop]
      by_cases h0 : rem = 0
      · subst h0; simp
      · rw [dif_neg h0]
        have hmin : min 4096 rem ≤ s.length := by
          have : min 4096 rem ≤ rem := Nat.min_le_right _ _
          omega
        have hlen : (s.take (min 4096 rem)).length = min 4096 rem := by
          rw [List.length_take]
          omega
        have hne : s.take (min 4096 rem) ≠ [] := by
          intro hc
          have := congrArg List.length hc
          rw [hlen] at this
          simp at this
          omega
        rw [dif_neg hne]
        have hlt : rem - (s.take (min 4096 rem)).length < rem := by
          rw [hlen]; omega
        rw [ih _ hlt _ (by
          rw [hlen, List.length_drop]
          omega)]
        rw [hlen]
        have htake : s.take (min 4096 rem) ++ (s.drop (min 4096 rem)).take (rem - min 4096 rem)
            = s.take rem := by
          rw [← List.take_add]
          congr 1
          omega
        have hdrop : (s.drop (min 4096 rem)).drop (rem - min 4096 rem) = s.drop rem := by
          rw [List.drop_drop]
          congr 1
          omega
        simp [htake, hdrop]

/-- The `.*` regex compiled for ALL matches every name under re.match. -/
theorem rmatchStart_dotStar (s : Bytes) : rmatchStart [Ratom.dotStar] s = true := by
  have hm : s ∈ s.tails := (List.mem_tails s s).2 (List.suffix_refl s)
  show s.tails.any (fun t => rmatchStart [] t) = true
  rw [List.any_eq_true]
  exact ⟨s, hm, rfl⟩

/-- On a pattern without dots (and inside the modelled fragment) the
compiled regex is exactly the spec's literal glob. -/
theorem translatePattern_dotfree {p : Bytes} {r : List Ratom}
    (h : translatePattern p = some r) (hd : '.' ∉ p) : r = specGlobAtoms p := by
  induction p generalizing r with
  | nil =>
      simp only [translatePattern] at h
      simp [specGlobAtoms, ← Option.some.inj h]
  | cons c rest ih =>
      have hdc : c ≠ '.' := by intro hc; exact hd (by simp [hc])
      have hdr : '.' ∉ rest := fun hx => hd (by simp [hx])
      by_cases hstar : c = '*'
      · subst hstar
        simp only [translatePattern, if_pos rfl] at h
        cases htr : translatePattern rest with
        | none => rw [htr] at h; exact absurd h (by simp)
        | some r' =>
            rw [htr, Option.map_some'] at h
            rw [← Option.some.inj h, specGlobAtoms, if_pos rfl, ih htr hdr]
      · simp only [translatePattern, if_neg hstar, if_neg hdc] at h
        cases hmeta : regexMeta c with
        | true => rw [hmeta] at h; exact absurd h (by simp)
        | false =>
            rw [hmeta] at h
            simp only [Bool.false_eq_true, if_false] at h
            cases htr : translatePattern rest with
            | none => rw [htr] at h; exact absurd h (by simp)
            | some r' =>
                rw [htr, Option.map_some'] at h
                rw [← Option.some.inj h, specGlobAtoms, if_neg hstar, ih htr hdr]

theorem storageLookup_insert (st : Storage) (n c : Bytes) :
    storageLookup (storageInsert st n c) n = some c := by
  induction st with
  | nil => simp [storageInsert, storageLookup]
  | cons e rest ih =>
      obtain ⟨k, v⟩ := e
      by_cases hk : k = n
      · simp [storageInsert, hk, storageLookup]
      · simp only [storageInsert, if_neg hk, storageLookup, hk, if_false]
        exact ih

theorem splitOnce_of_isPrefix {sep b : Bytes} (hsep : sep ≠ [])
    (h : sep.isPrefixOf b) :
    splitOnce sep b = some ([], b.drop sep.length) := by
  cases b with
  | nil =>
      cases sep with
      | nil => exact absurd rfl hsep
      | cons s ss => simp [List.isPrefixOf] at h
  | cons c rest => rw [splitOnce_cons, if_pos h]

theorem splitOnce_single_not_mem {c : Char} {w t : Bytes} (h : c ∉ w) :
    splitOnce [c] (w ++ c :: t) = some (w, t) := by
  induction w with
  | nil =>
      rw [List.nil_append,
        splitOnce_of_isPrefix (b := c :: t) (by simp : ([c] : Bytes) ≠ [])
          ((List.isPrefixOf_iff_prefix).2 ⟨t, by simp⟩)]
      simp
  | cons d w' ih =>
      have hd : c ≠ d := fun hcd => h (by rw [hcd]; simp)
      rw [List.cons_append, splitOnce_cons,
        if_neg (fun hp =>
          hd ((List.cons_prefix_cons.1 ((List.isPrefixOf_iff_prefix).1 hp)).1)),
        ih (fun hcm => h (by simp [hcm]))]
      simp

theorem splitOnce_sentinel_append {l r : Bytes} (h : '<' ∉ l) :
    splitOnce sentinelB (l ++ (sentinelB ++ r)) = some (l, r) := by
  induction l with
  | nil =>
      rw [List.nil_append,
        splitOnce_of_isPrefix (by decide)
          ((List.isPrefixOf_iff_prefix).2 (List.prefix_append sentinelB r))]
      rw [List.drop_left]
  | cons d l' ih =>
      have hd : ('<' : Char) ≠ d := fun hcd => h (by rw [← hcd]; simp)
      have hnp : ¬ (List.isPrefixOf sentinelB (d :: (l' ++ (sentinelB ++ r))) = true) := by
        intro hp
        have h2 := (List.isPrefixOf_iff_prefix).1 hp
        rw [show sentinelB = '<' :: ("END>\n".data) from rfl] at h2
        exact hd (List.cons_prefix_cons.1 h2).1
      rw [List.cons_append, splitOnce_cons, if_neg hnp,
        ih (fun hcm => h (by simp [hcm]))]
      simp

-- One-step equations for the threaded connection loop.

theorem handle_client_step {fuel : Nat} {st : Storage} {buffer : Bytes}
    {input : List Bytes} {out line buffer' o : Bytes} {st' : Storage}
    {input' : List Bytes}
    (h : splitOnce ['\n'] buffer = some (line, buffer'))
    (hd : dispatch_command st (pyStrip line) input = some (o, st', input')) :
    handle_client (fuel + 1) st buffer input out
      = handle_client fuel st' buffer' input' (out ++ o) := by
  simp only [handle_client, h, hd]

theorem handle_client_recv {fuel : Nat} {st : Storage} {buffer : Bytes}
    {input : List Bytes} {out data : Bytes}
    (h : splitOnce ['\n'] buffer = none) (hne : data ≠ []) :
    handle_client (fuel + 1) st buffer (data :: input) out
      = handle_client fuel st (buffer ++ data) input out := by
  simp only [handle_client, h, if_neg hne]

theorem handle_client_eof {fuel : Nat} {st : Storage} {buffer out : Bytes}
    (h : splitOnce ['\n'] buffer = none) :
    handle_client (fuel + 1) st buffer [] out = some (out, st) := by
  simp only [handle_client, h]

theorem chunks4096_clean {content : Bytes}
    (hc : splitOnce sentinelB content = none) :
    ∀ ch ∈ chunks4096 content, splitOnce sentinelB ch = none ∧ ch ≠ [] :=
  fun ch h => ⟨splitOnce_none_within hc (chunks4096_within ch h),
    chunks4096_ne_nil ch h⟩

/-- A sentinel-free upload arriving as the client sends it (content in
4096-byte chunks, then the sentinel in a send of its own) stores exactly
the content and raises nothing. -/
theorem cmd_load_clean {content : Bytes}
    (hc : splitOnce sentinelB content = none) (st : Storage) (f : Bytes) :
    cmd_load st f (chunks4096 content ++ [sentinelB]) =
      ⟨readyB, storageInsert st f content, [], none⟩ := by
  have h := loadLoop_clean (chunks4096_clean hc) []
  rw [List.nil_append, joinB_chunks4096] at h
  unfold cmd_load
  rw [h]

theorem pySplit_load_line {label : Bytes} (h1 : label ≠ [])
    (h2 : ∀ c ∈ label, pySpace c = false) :
    pySplit ("LOAD ".data ++ label) = ["LOAD".data, label] := by
  have heq : "LOAD ".data ++ label = "LOAD".data ++ ' ' :: label := rfl
  rw [heq, pySplit_word_space (by decide) (by decide) (by decide) label,
    pySplit_word h2 h1]

theorem pyStrip_load_line {label : Bytes} (h1 : label ≠ [])
    (h2 : ∀ c ∈ label, pySpace c = false) :
    pyStrip (("LOAD ".data ++ label) ++ [' ']) = "LOAD ".data ++ label := by
  rw [pyStrip_append_spaces (by intro c hc; simp at hc; rw [hc]; decide)]
  apply pyStrip_eq_self
  · intro c hcc
    have hh : ("LOAD ".data ++ label).head? = some 'L' := rfl
    rw [hh] at hcc
    have := Option.some.inj hcc
    rw [← this]
    decide
  · intro c hcc
    rw [List.getLast?_append_of_ne_nil _ h1,
      List.getLast?_eq_getLast_of_ne_nil h1] at hcc
    have := Option.some.inj hcc
    rw [← this]
    exact h2 _ (List.getLast_mem h1)

theorem dispatch_load_clean {st : Storage} {label content : Bytes}
    (hc : splitOnce sentinelB content = none)
    (h1 : label ≠ []) (h2 : ∀ c ∈ label, pySpace c = false) :
    dispatch_command st ("LOAD ".data ++ label) (chunks4096 content ++ [sentinelB])
      = some (readyB, storageInsert st label content, []) := by
  have hup : asciiUpperB ("LOAD".data) = "LOAD".data := by decide
  simp only [dispatch_command, pySplit_load_line h1 h2, hup, if_pos,
    cmd_load_clean hc st label]

theorem handle_client_upload {st : Storage} {label content : Bytes}
    (hc : splitOnce sentinelB content = none)
    (h1 : label ≠ []) (h2 : ∀ c ∈ label, pySpace c = false) :
    handle_client 3 st []
        (loadCmdLine label :: (chunks4096 content ++ [sentinelB])) []
      = some (readyB, storageInsert st label content) := by
  have hnl : splitOnce ['\n'] ([] : Bytes) = none := by decide
  have hne : loadCmdLine label ≠ [] := by
    rw [loadCmdLine]
    intro hcon
    have := congrArg List.length hcon
    simp at this
  rw [show (3 : Nat) = 2 + 1 from rfl, handle_client_recv hnl hne]
  have hbuf : ([] : Bytes) ++ loadCmdLine label
      = (("LOAD ".data ++ label) ++ [' ']) ++ '\n' :: [] := by
    rw [loadCmdLine]
    simp
  have hmem : '\n' ∉ ("LOAD ".data ++ label) ++ [' '] := by
    intro hm
    rcases List.mem_append.1 hm with hm1 | hm2
    · rcases List.mem_append.1 hm1 with hm3 | hm4
      · simp at hm3
      · have := h2 _ hm4
        simp [pySpace] at this
    · simp at hm2
  have hsp : splitOnce ['\n'] ([] ++ loadCmdLine label)
      = some (("LOAD ".data ++ label) ++ [' '], []) := by
    rw [hbuf]
    exact splitOnce_single_not_mem hmem
  have hdc : dispatch_command st
      (pyStrip (("LOAD ".data ++ label) ++ [' ']))
      (chunks4096 content ++ [sentinelB])
      = some (readyB, storageInsert st label content, []) := by
    rw [pyStrip_load_line h1 h2]
    exact dispatch_load_clean hc h1 h2
  rw [show (2 : Nat) = 1 + 1 from rfl, handle_client_step hsp hdc]
  rw [show (1 : Nat) = 0 + 1 from rfl, handle_client_eof hnl]
  simp

theorem cmd_get_file_found {st : Storage} {f content : Bytes}
    (h : storageLookup st f = some content) :
    cmd_get_file st f
      = (readySizeLine content.length ++ content ++ sentinelB, st) := by
  unfold cmd_get_file
  rw [h]
  have hfold : ∀ b : Bytes, (chunks4096 b).foldr (fun a b => a ++ b) [] = b :=
    joinB_chunks4096
  simp [hfold]

theorem pyStrip_ready_line (n : Nat) :
    pyStrip (readySizeLine n) = "READY ".data ++ natToBytes n := by
  rw [readySizeLine, pyStrip_append_spaces (by
    intro c hc; simp at hc; rw [hc]; decide)]
  apply pyStrip_eq_self
  · intro c hcc
    have hh : ("READY ".data ++ natToBytes n).head? = some 'R' := rfl
    rw [hh] at hcc
    have := Option.some.inj hcc
    rw [← this]
    decide
  · intro c hcc
    rw [List.getLast?_append_of_ne_nil _ (natToBytes_ne_nil n),
      List.getLast?_eq_getLast_of_ne_nil (natToBytes_ne_nil n)] at hcc
    have := Option.some.inj hcc
    rw [← this]
    exact natToBytes_nonspace n _ (List.getLast_mem (natToBytes_ne_nil n))

theorem pySplit_ready_line (n : Nat) :
    pySplit ("READY ".data ++ natToBytes n) = ["READY".data, natToBytes n] := by
  have heq : "READY ".data ++ natToBytes n = "READY".data ++ ' ' :: natToBytes n := rfl
  rw [heq, pySplit_word_space (by decide) (by decide) (by decide) (natToBytes n),
    pySplit_word (natToBytes_nonspace n) (natToBytes_ne_nil n)]

/-- The client download loop run against a correct `READY <n>` line and a
stream holding at least n bytes returns exactly the first n bytes. -/
theorem download_ready {n : Nat} {s : Bytes} (hlen : n ≤ s.length) :
    download (readySizeLine n) s = .ok (s.take n) := by
  unfold download
  rw [pyStrip_ready_line n]
  rw [if_neg (by
    intro hp
    have := (List.cons_prefix_cons.1 ((List.isPrefixOf_iff_prefix).1 hp)).1
    simp at this)]
  rw [pySplit_ready_line n]
  simp only [parseNat_natToBytes n, downloadLoop_spec n s hlen, if_pos]

/-!
## The claims
-/

/-- Claim C1: for every byte content that does not contain the literal
sequence b"<END>\n", uploading it under a name via the LOAD protocol
(the client sends the LOAD line, the 4096-byte content chunks and the
sentinel; the server accumulates bytes until the sentinel and writes the
prefix to storage) and then downloading it under the same name via
GET FILE yields byte-identical content. -/
theorem c1_upload_download_roundtrip (st : Storage) (content label : Bytes)
    (hc : containsB sentinelB content = false)
    (hl1 : label ≠ []) (hl2 : ∀ c ∈ label, pySpace c = false) :
    (upload content label readyB).raised = none ∧
    (upload content label readyB).sent
      = loadCmdLine label :: (chunks4096 content ++ [sentinelB]) ∧
    handle_client 3 st [] ((upload content label readyB).sent) []
      = some (readyB, storageInsert st label content) ∧
    storageLookup (storageInsert st label content) label = some content ∧
    cmd_get_file (storageInsert st label content) label
      = (readySizeLine content.length ++ content ++ sentinelB,
          storageInsert st label content) ∧
    download (readySizeLine content.length) (content ++ sentinelB)
      = .ok content := by
  have hno : splitOnce sentinelB content = none := by
    rw [containsB] at hc
    cases hsp : splitOnce sentinelB content with
    | none => rfl
    | some pr => rw [hsp] at hc; simp at hc
  have hup : upload content label readyB
      = ⟨loadCmdLine label :: (chunks4096 content ++ [sentinelB]), none⟩ := by
    rw [upload, if_pos (by decide)]
    simp
  refine ⟨by rw [hup], by rw [hup], ?_, ?_, ?_, ?_⟩
  · rw [hup]
    exact handle_client_upload hno hl1 hl2
  · exact storageLookup_insert st label content
  · exact cmd_get_file_found (storageLookup_insert st label content)
  · have hd := download_ready (n := content.length)
      (s := content ++ sentinelB) (by simp)
    rw [hd, List.take_left]

/-- C1 witness: a concrete 7-byte file `up.txt` with content `data123`
makes the round trip. -/
theorem c1_witness :
    containsB sentinelB ("data123".data) = false ∧
    ((upload ("data123".data) ("up.txt".data) readyB).raised = none ∧
      (upload ("data123".data) ("up.txt".data) readyB).sent
        = loadCmdLine ("up.txt".data)
            :: (chunks4096 ("data123".data) ++ [sentinelB]) ∧
      handle_client 3 [] []
          ((upload ("data123".data) ("up.txt".data) readyB).sent) []
        = some (readyB, storageInsert [] ("up.txt".data) ("data123".data)) ∧
      storageLookup (storageInsert [] ("up.txt".data) ("data123".data))
          ("up.txt".data) = some ("data123".data) ∧
      cmd_get_file (storageInsert [] ("up.txt".data) ("data123".data))
          ("up.txt".data)
        = (readySizeLine ("data123".data).length ++ "data123".data ++ sentinelB,
            storageInsert [] ("up.txt".data) ("data123".data)) ∧
      download (readySizeLine ("data123".data).length)
          ("data123".data ++ sentinelB)
        = .ok ("data123".data)) :=
  ⟨by decide, c1_upload_download_roundtrip [] ("data123".data) ("up.txt".data)
    (by decide) (by decide) (by decide)⟩

/-- Claim C4: for every stored file of n bytes, GET FILE replies with the
single line `READY <n>\n` where n is the exact byte length, then the n
payload bytes, then the sentinel b"<END>\n", in that order — in both
runtimes. -/
theorem c4_get_file_ready_frame (st : Storage) (name content : Bytes)
    (h : storageLookup st name = some content) :
    cmd_get_file st name
      = (readySizeLine content.length ++ content ++ sentinelB, st) ∧
    cmd_get_file_async st name
      = (readySizeLine content.length ++ content ++ sentinelB, st) ∧
    readySizeLine content.length
      = "READY ".data ++ natToBytes content.length ++ ['\n'] := by
  refine ⟨cmd_get_file_found h, ?_, rfl⟩
  exact cmd_get_file_found h

/-- C4 witness on a stored three-byte file. -/
theorem c4_witness :
    storageLookup [("a.txt".data, "xyz".data)] ("a.txt".data)
      = some ("xyz".data) ∧
    (cmd_get_file [("a.txt".data, "xyz".data)] ("a.txt".data)
      = (readySizeLine ("xyz".data).length ++ "xyz".data ++ sentinelB,
          [("a.txt".data, "xyz".data)]) ∧
    cmd_get_file_async [("a.txt".data, "xyz".data)] ("a.txt".data)
      = (readySizeLine ("xyz".data).length ++ "xyz".data ++ sentinelB,
          [("a.txt".data, "xyz".data)]) ∧
    readySizeLine ("xyz".data).length
      = "READY ".data ++ natToBytes ("xyz".data).length ++ ['\n']) :=
  ⟨by decide, c4_get_file_ready_frame _ _ _ (by decide)⟩

/-- Claim C8: for every name absent from storage, GET FILE replies with
exactly the single frame `ERROR FileNotFound <name>\n` and performs no
storage mutation, in both runtimes. -/
theorem c8_get_file_absent (st : Storage) (name : Bytes)
    (h : storageLookup st name = none) :
    cmd_get_file st name
      = ("ERROR FileNotFound ".data ++ name ++ ['\n'], st) ∧
    cmd_get_file_async st name
      = ("ERROR FileNotFound ".data ++ name ++ ['\n'], st) := by
  have hmain : cmd_get_file st name
      = ("ERROR FileNotFound ".data ++ name ++ ['\n'], st) := by
    unfold cmd_get_file
    rw [h]
  exact ⟨hmain, hmain⟩

/-- C8 witness on an empty storage directory. -/
theorem c8_witness :
    storageLookup [] ("nofile.txt".data) = none ∧
    (cmd_get_file [] ("nofile.txt".data)
      = ("ERROR FileNotFound ".data ++ "nofile.txt".data ++ ['\n'], []) ∧
    cmd_get_file_async [] ("nofile.txt".data)
      = ("ERROR FileNotFound ".data ++ "nofile.txt".data ++ ['\n'], [])) :=
  ⟨by decide, c8_get_file_absent [] ("nofile.txt".data) (by decide)⟩

/-- Claim C10: the listing handler's ALL check is case-insensitive —
any pattern whose upper-casing is "ALL" (all, All, aLL, ...) lists every
entry of the storage directory and can never act as a literal filename
glob; in both runtimes. -/
theorem c10_get_files_all_case_insensitive (pat : Bytes) (st : Storage)
    (h : asciiUpperB pat = "ALL".data) :
    cmd_get_files st pat
      = some (List.intercalate ['\n'] (storageNames st) ++ ['\n']) ∧
    cmd_get_files_async st pat
      = some (List.intercalate ['\n'] (storageNames st) ++ ['\n']) := by
  have hmain : cmd_get_files st pat
      = some (List.intercalate ['\n'] (storageNames st) ++ ['\n']) := by
    rw [cmd_get_files, if_pos h,
      List.filter_eq_self.2 (fun x _ => rmatchStart_dotStar x)]
  exact ⟨hmain, hmain⟩

/-- C10 witness: the lowercase pattern `all` lists everything, including
a stored file literally named `all`. -/
theorem c10_witness :
    asciiUpperB ("all".data) = "ALL".data ∧
    (cmd_get_files [("one.log".data, []), ("all".data, [])] ("all".data)
      = some (List.intercalate ['\n']
          (storageNames [("one.log".data, []), ("all".data, [])]) ++ ['\n']) ∧
    cmd_get_files_async [("one.log".data, []), ("all".data, [])] ("all".data)
      = some (List.intercalate ['\n']
          (storageNames [("one.log".data, []), ("all".data, [])]) ++ ['\n'])) :=
  ⟨by decide, c10_get_files_all_case_insensitive ("all".data)
    [("one.log".data, []), ("all".data, [])] (by decide)⟩

/-- C5 counterexample: the claim says every non-`*` character of a
listing pattern matches literally, but the code builds a regex without
escaping, so the `.` of `*.log` matches ANY character: the handler lists
`catalog` under the pattern `*.log`, although the literal glob of the
spec does not match it. -/
theorem c5_counterexample :
    cmd_get_files [("catalog".data, [])] ("*.log".data)
      = some ("catalog".data ++ ['\n']) ∧
    specGlobMatch ("*.log".data) ("catalog".data) = false := by
  constructor
  · decide
  · decide

/-- C5 amended: GET FILES matching is anchored whole-name matching of
the translated pattern in which `*` matches any sequence and `.` — an
unescaped regex metacharacter — matches any single character; every
character that is not a regex metacharacter matches literally, so on
dot-free patterns the match coincides with the spec's literal glob.  The
spec's `*.log` example still returns exactly one.log and three.log. -/
theorem c5_amended :
    cmd_get_files
        [("one.log".data, []), ("two.txt".data, []), ("three.log".data, [])]
        ("*.log".data)
      = some ("one.log".data ++ '\n' :: "three.log".data ++ ['\n']) ∧
    (∀ (p : Bytes) (r : List Ratom) (n : Bytes), translatePattern p = some r →
      '.' ∉ p → rmatch r n = specGlobMatch p n) := by
  constructor
  · decide
  · intro p r n htr hd
    rw [translatePattern_dotfree htr hd]
    rfl

/-- C5 amended witness: on the dot-free pattern `abc*` the code's match
and the literal glob agree. -/
theorem c5_amended_witness :
    translatePattern ("abc*".data)
      = some [Ratom.lit 'a', Ratom.lit 'b', Ratom.lit 'c', Ratom.dotStar] ∧
    rmatch [Ratom.lit 'a', Ratom.lit 'b', Ratom.lit 'c', Ratom.dotStar]
        ("abcd".data)
      = specGlobMatch ("abc*".data) ("abcd".data) :=
  ⟨by decide, c5_amended.2 ("abc*".data) _ ("abcd".data) (by decide) (by decide)⟩

/-- C7 counterexample: a bare `LOAD` line (missing its filename) is a
malformed line, but instead of the unknown-command frame the threaded
dispatcher serializes the IndexError of `parts[1]` as
`ERROR list index out of range\n`, and the async dispatcher lets the
IndexError escape, sending nothing at all. -/
theorem c7_counterexample :
    dispatch_command [] ("LOAD".data) []
      = some ("ERROR list index out of range\n".data, [], []) ∧
    ("ERROR list index out of range\n".data : Bytes)
      ≠ "ERROR Unknown command\n".data ∧
    dispatch_command_async [] ("LOAD".data) []
      = some ⟨[], [], [], some ServerErr.indexError⟩ := by
  refine ⟨by decide, by decide, by decide⟩

/-- C7 amended: a line whose first token upper-cases to neither LOAD nor
GET, and a GET line with fewer than three tokens, get
`ERROR Unknown command\n` in both runtimes; a GET line with three or
more tokens and an unknown subcommand gets
`ERROR Unknown GET subcommand\n` in the threaded runtime but no reply at
all in the async runtime. -/
theorem c7_amended :
    (∀ (st : Storage) (line : Bytes) (input : List Bytes) (tok : Bytes)
        (rest : List Bytes), pySplit line = tok :: rest →
      asciiUpperB tok ≠ "LOAD".data → asciiUpperB tok ≠ "GET".data →
      dispatch_command st line input
          = some ("ERROR Unknown command\n".data, st, input) ∧
        dispatch_command_async st line input
          = some ⟨"ERROR Unknown command\n".data, st, input, none⟩) ∧
    (∀ (st : Storage) (line : Bytes) (input : List Bytes) (tok : Bytes)
        (rest : List Bytes), pySplit line = tok :: rest →
      asciiUpperB tok = "GET".data → (tok :: rest).length < 3 →
      dispatch_command st line input
          = some ("ERROR Unknown command\n".data, st, input) ∧
        dispatch_command_async st line input
          = some ⟨"ERROR Unknown command\n".data, st, input, none⟩) ∧
    (∀ (st : Storage) (line : Bytes) (input : List Bytes)
        (tok sub arg : Bytes) (more : List Bytes),
      pySplit line = tok :: sub :: arg :: more →
      asciiUpperB tok = "GET".data →
      asciiUpperB sub ≠ "FILE".data → asciiUpperB sub ≠ "FILES".data →
      dispatch_command st line input
          = some ("ERROR Unknown GET subcommand\n".data, st, input) ∧
        dispatch_command_async st line input
          = some ⟨[], st, input, none⟩) := by
  have hng : ("GET".data : Bytes) ≠ "LOAD".data := by decide
  refine ⟨?_, ?_, ?_⟩
  · intro st line input tok rest hs hl hg
    constructor
    · simp only [dispatch_command, hs, if_neg hl]
      rw [if_neg (by intro hcon; exact hg hcon.1)]
    · simp only [dispatch_command_async, hs, if_neg hl]
      rw [if_neg (by intro hcon; exact hg hcon.1)]
  · intro st line input tok rest hs hg hlen
    have hl : asciiUpperB tok ≠ "LOAD".data := by rw [hg]; exact hng
    constructor
    · simp only [dispatch_command, hs, if_neg hl]
      rw [if_neg (by intro hcon; omega)]
    · simp only [dispatch_command_async, hs, if_neg hl]
      rw [if_neg (by intro hcon; omega)]
  · intro st line input tok sub arg more hs hg hf1 hf2
    have hl : asciiUpperB tok ≠ "LOAD".data := by rw [hg]; exact hng
    constructor
    · simp only [dispatch_command, hs, if_neg hl]
      rw [if_pos (by exact ⟨hg, by simp⟩)]
      rw [if_neg hf1, if_neg hf2]
    · simp only [dispatch_command_async, hs, if_neg hl]
      rw [if_pos (by exact ⟨hg, by simp⟩)]
      rw [if_neg hf1, if_neg hf2]

/-- C7 amended witness: the lines `HELLO`, `GET FILE` and `GET STUFF x`
at concrete inputs. -/
theorem c7_amended_witness :
    (dispatch_command [] ("HELLO".data) []
        = some ("ERROR Unknown command\n".data, [], []) ∧
      dispatch_command_async [] ("HELLO".data) []
        = some ⟨"ERROR Unknown command\n".data, [], [], none⟩) ∧
    (dispatch_command [] ("GET FILE".data) []
        = some ("ERROR Unknown command\n".data, [], []) ∧
      dispatch_command_async [] ("GET FILE".data) []
        = some ⟨"ERROR Unknown command\n".data, [], [], none⟩) ∧
    (dispatch_command [] ("GET STUFF x".data) []
        = some ("ERROR Unknown GET subcommand\n".data, [], []) ∧
      dispatch_command_async [] ("GET STUFF x".data) []
        = some ⟨[], [], [], none⟩) :=
  ⟨c7_amended.1 [] ("HELLO".data) [] ("HELLO".data) [] (by decide)
      (by decide) (by decide),
    c7_amended.2.1 [] ("GET FILE".data) [] ("GET".data) ["FILE".data]
      (by decide) (by decide) (by decide),
    c7_amended.2.2 [] ("GET STUFF x".data) [] ("GET".data) ("STUFF".data)
      ("x".data) [] (by decide) (by decide) (by decide) (by decide)⟩

/-- C9 counterexample: on a non-READY response to LOAD the client's
upload aborts before streaming (only the command line was sent) but
RETURNS NORMALLY — no exception reaches the caller, so the failure is
not a distinct condition; it is only logged. -/
theorem c9_counterexample :
    (upload ("data123".data) ("f.txt".data) ("ERROR nope\n".data)).raised
      = none ∧
    (upload ("data123".data) ("f.txt".data) ("ERROR nope\n".data)).sent
      = [loadCmdLine ("f.txt".data)] ∧
    pyStrip ("ERROR nope\n".data) ≠ "READY".data := by
  refine ⟨by decide, by decide, by decide⟩

/-- C9 amended: for every response whose stripped text is not exactly
READY, upload sends only the LOAD command line (no file bytes, no
sentinel) and returns normally without raising. -/
theorem c9_amended (content label response : Bytes)
    (h : pyStrip response ≠ "READY".data) :
    upload content label response = ⟨[loadCmdLine label], none⟩ := by
  rw [upload, if_neg h]

/-- C9 amended witness. -/
theorem c9_amended_witness :
    pyStrip ("ERROR busy\n".data) ≠ "READY".data ∧
    upload ("abc".data) ("g.txt".data) ("ERROR busy\n".data)
      = ⟨[loadCmdLine ("g.txt".data)], none⟩ :=
  ⟨by decide, c9_amended ("abc".data) ("g.txt".data) ("ERROR busy\n".data)
    (by decide)⟩

/-- The C6 counterexample content: 4094 'a' bytes followed by one
embedded sentinel.  The client's 4096-byte chunking splits the sentinel
across two sends, so the per-chunk sentinel test of `_cmd_load` misses
it. -/
def c6content : Bytes := List.replicate 4094 'a' ++ sentinelB

theorem c6content_chunks :
    chunks4096 c6content
      = [List.replicate 4094 'a' ++ ['<', 'E'], ['N', 'D', '>', '\n']] := by
  have hne : c6content ≠ [] := by
    intro h
    have := congrArg List.length h
    simp only [c6content, List.length_append, List.length_replicate,
      sentinelB, List.length_cons, List.length_nil] at this
    omega
  have h1 : c6content.take 4096 = List.replicate 4094 'a' ++ ['<', 'E'] := by
    rw [c6content, List.take_append_eq_append_take,
      List.take_of_length_le (by rw [List.length_replicate]; omega),
      List.length_replicate]
    congr 1
  have h2 : c6content.drop 4096 = ['N', 'D', '>', '\n'] := by
    rw [c6content, List.drop_append_eq_append_drop,
      List.drop_of_length_le (by rw [List.length_replicate]; omega),
      List.length_replicate, List.nil_append]
    decide
  rw [chunks4096_ne_nil_eq hne, h1, h2,
    chunks4096_small (by decide) (by decide)]

/-- C6 counterexample: for the client-chunked stream of `c6content` the
upload handler does NOT truncate at the first sentinel occurrence — the
split sentinel fragments are written through and the whole content
(embedded sentinel included) is stored; no error is raised. -/
theorem c6_counterexample :
    containsB sentinelB c6content = true ∧
    splitOnce sentinelB c6content = some (List.replicate 4094 'a', []) ∧
    cmd_load [] ("f.txt".data) (chunks4096 c6content ++ [sentinelB])
      = ⟨readyB, [("f.txt".data, c6content)], [], none⟩ ∧
    c6content ≠ List.replicate 4094 'a' := by
  have hmem : '<' ∉ List.replicate 4094 'a' := by
    intro h
    have := List.eq_of_mem_replicate h
    simp at this
  have hsp : splitOnce sentinelB c6content
      = some (List.replicate 4094 'a', []) := by
    have := splitOnce_sentinel_append (l := List.replicate 4094 'a')
      (r := []) hmem
    rw [List.append_nil] at this
    rw [c6content]
    exact this
  refine ⟨by rw [containsB, hsp]; rfl, hsp, ?_, ?_⟩
  · rw [c6content_chunks]
    have hc1 : splitOnce sentinelB (List.replicate 4094 'a' ++ ['<', 'E'])
        = none := by
      apply splitOnce_none_of_not_occurs
      intro hinf
      have hNmem := hinf.subset (show 'N' ∈ sentinelB by decide)
      rcases List.mem_append.1 hNmem with hm1 | hm2
      · have := List.eq_of_mem_replicate hm1
        simp at this
      · simp at hm2
    have hc1ne : List.replicate 4094 'a' ++ ['<', 'E'] ≠ ([] : Bytes) := by
      intro h
      have := congrArg List.length h
      simp only [List.length_append, List.length_replicate, List.length_cons,
        List.length_nil] at this
      omega
    have hclean : ∀ x ∈ [List.replicate 4094 'a' ++ ['<', 'E'],
        (['N', 'D', '>', '\n'] : Bytes)],
        splitOnce sentinelB x = none ∧ x ≠ [] := by
      intro x hx
      rcases List.mem_cons.1 hx with h1 | h2
      · exact h1 ▸ ⟨hc1, hc1ne⟩
      · have : x = ['N', 'D', '>', '\n'] := by simpa using h2
        exact this ▸ ⟨by decide, by decide⟩
    have hll := loadLoop_clean hclean []
    unfold cmd_load
    rw [hll]
    have hj : joinB [List.replicate 4094 'a' ++ ['<', 'E'],
        (['N', 'D', '>', '\n'] : Bytes)] = c6content := by
      rw [joinB_cons, joinB_cons, joinB_nil, List.append_nil, c6content,
        List.append_assoc]
      rfl
    rw [hj]
    rfl
  · intro h
    have := congrArg List.length h
    simp only [c6content, List.length_append, List.length_replicate,
      sentinelB, List.length_cons, List.length_nil] at this
    omega

/-- C6 amended: the upload handler stores exactly the bytes preceding
the first sentinel occurrence, without error, PROVIDED that occurrence
arrives wholly within one received chunk: in particular whenever the
whole stream arrives in one recv (both runtimes), and more generally
when sentinel-free chunks precede the chunk carrying the occurrence
(threaded runtime); everything from that occurrence on is discarded. -/
theorem c6_amended :
    (∀ (st : Storage) (f s cpre ctail : Bytes),
      splitOnce sentinelB s = some (cpre, ctail) → s ≠ [] →
      cmd_load st f [s] = ⟨readyB, storageInsert st f cpre, [], none⟩ ∧
      cmd_load_async st f [s]
        = ⟨readyB, storageInsert st f cpre, [], none⟩) ∧
    (∀ (st : Storage) (f : Bytes) (u : List Bytes) (c cpre ctail : Bytes)
        (v : List Bytes),
      (∀ x ∈ u, splitOnce sentinelB x = none ∧ x ≠ []) →
      splitOnce sentinelB c = some (cpre, ctail) → c ≠ [] →
      cmd_load st f (u ++ c :: v)
        = ⟨readyB, storageInsert st f (joinB u ++ cpre), v, none⟩) := by
  have key : ∀ (st : Storage) (f : Bytes) (u : List Bytes)
      (c cpre ctail : Bytes) (v : List Bytes),
      (∀ x ∈ u, splitOnce sentinelB x = none ∧ x ≠ []) →
      splitOnce sentinelB c = some (cpre, ctail) → c ≠ [] →
      cmd_load st f (u ++ c :: v)
        = ⟨readyB, storageInsert st f (joinB u ++ cpre), v, none⟩ := by
    intro st f u c cpre ctail v hu hc hcne
    unfold cmd_load
    rw [loadLoop_inchunk hu hc hcne v []]
    simp
  refine ⟨?_, key⟩
  intro st f s cpre ctail hs hsne
  have h1 := key st f [] s cpre ctail [] (by simp) hs hsne
  rw [List.nil_append] at h1
  have hj : joinB [] ++ cpre = cpre := by rw [joinB_nil, List.nil_append]
  rw [hj] at h1
  refine ⟨h1, ?_⟩
  have hca : cmd_load_async st f [s] = cmd_load st f [s] := by
    unfold cmd_load cmd_load_async
    rw [loadLoop_eq_async]
  rw [hca]
  exact h1

/-- C6 amended witness: a single-chunk upload containing an embedded
sentinel truncates at its first occurrence without error. -/
theorem c6_amended_witness :
    splitOnce sentinelB ("abc<END>\ndef<END>\n".data)
      = some ("abc".data, "def<END>\n".data) ∧
    (cmd_load [] ("f.txt".data) [("abc<END>\ndef<END>\n".data)]
      = ⟨readyB, storageInsert [] ("f.txt".data) ("abc".data), [], none⟩ ∧
    cmd_load_async [] ("f.txt".data) [("abc<END>\ndef<END>\n".data)]
      = ⟨readyB, storageInsert [] ("f.txt".data) ("abc".data), [], none⟩) :=
  ⟨by decide, (c6_amended.1 [] ("f.txt".data) ("abc<END>\ndef<END>\n".data)
    ("abc".data) ("def<END>\n".data) (by decide) (by decide))⟩

/-- C2 counterexample: in the async runtime a handler exception (here
the ErrorDuringUpload of a peer that closed right after `LOAD f`) is NOT
caught at the dispatch boundary: no ERROR frame is written (the output
is only `READY\n`) and the connection loop terminates. -/
theorem c2_counterexample :
    handle_client_async 2 [] ["LOAD f\n".data] []
      = ("READY\n".data, [("f".data, [])], true) ∧
    containsB ("ERROR".data) ("READY\n".data) = false := by
  refine ⟨by decide, by decide⟩

/-- C2 amended: in the threaded runtime a handler exception is caught at
the dispatch boundary and serialized as `ERROR <Kind> <message>\n` after
the bytes already written, the dispatcher returns normally and the
connection loop goes on reading; in the async runtime the same exception
propagates out of the dispatcher and the connection-level handler closes
the connection without writing any error frame. -/
theorem c2_amended :
    (∀ (st : Storage) (line tok f : Bytes) (more : List Bytes)
        (input : List Bytes) (w : Bytes),
      pySplit line = tok :: f :: more → asciiUpperB tok = "LOAD".data →
      loadLoop [] [] input = .disconnected w →
      dispatch_command st line input
        = some (readyB ++ frameOf (ServerErr.errorDuringUpload discUploadMsg),
            storageInsert st f w, [])) ∧
    (∀ (st : Storage) (line tok f : Bytes) (more : List Bytes)
        (input : List Bytes) (w : Bytes),
      pySplit line = tok :: f :: more → asciiUpperB tok = "LOAD".data →
      loadLoopAsync [] input = .disconnected w →
      dispatch_command_async st line input
        = some ⟨readyB, storageInsert st f w, [],
            some (ServerErr.errorDuringUpload discUploadMsg)⟩) ∧
    (∀ (fuel : Nat) (st st' : Storage) (input input' remaining : List Bytes)
        (out data o : Bytes) (e : ServerErr),
      areadline input = (data, remaining) → data ≠ [] → input ≠ [] →
      dispatch_command_async st (pyStrip data) remaining
        = some ⟨o, st', input', some e⟩ →
      handle_client_async (fuel + 1) st input out = (out ++ o, st', true)) ∧
    (∀ (fuel : Nat) (st st' : Storage) (buffer line buffer' out o : Bytes)
        (input input' : List Bytes),
      splitOnce ['\n'] buffer = some (line, buffer') →
      dispatch_command st (pyStrip line) input = some (o, st', input') →
      handle_client (fuel + 1) st buffer input out
        = handle_client fuel st' buffer' input' (out ++ o)) := by
  refine ⟨?_, ?_, ?_, ?_⟩
  · intro st line tok f more input w hs htok hloop
    have hcl : cmd_load st f input
        = ⟨readyB, storageInsert st f w, [],
            some (.errorDuringUpload discUploadMsg)⟩ := by
      unfold cmd_load
      rw [hloop]
    simp [dispatch_command, hs, htok, hcl]
  · intro st line tok f more input w hs htok hloop
    have hcl : cmd_load_async st f input
        = ⟨readyB, storageInsert st f w, [],
            some (.errorDuringUpload discUploadMsg)⟩ := by
      unfold cmd_load_async
      rw [hloop]
    simp [dispatch_command_async, hs, htok, hcl]
  · intro fuel st st' input input' remaining out data o e hread hdata hinput hd
    cases input with
    | nil => exact absurd rfl hinput
    | cons i is =>
        simp only [handle_client_async, hread, if_neg hdata, hd]
  · intro fuel st st' buffer line buffer' out o input input' hs hd
    exact handle_client_step hs hd

/-- C2 amended witness: the four parts at concrete inputs (`LOAD f`
followed by an immediate disconnect; a lone unknown line for the loop
step). -/
theorem c2_amended_witness :
    (dispatch_command [] ("LOAD f".data) []
      = some (readyB ++ frameOf (ServerErr.errorDuringUpload discUploadMsg),
          storageInsert [] ("f".data) [], [])) ∧
    (dispatch_command_async [] ("LOAD f".data) []
      = some ⟨readyB, storageInsert [] ("f".data) [], [],
          some (ServerErr.errorDuringUpload discUploadMsg)⟩) ∧
    (handle_client_async 2 [] ["LOAD f\n".data] []
      = ([] ++ readyB, [("f".data, [])], true)) ∧
    (handle_client 1 [] ("x\n".data) [] []
      = handle_client 0 [] [] [] ([] ++ "ERROR Unknown command\n".data)) :=
  ⟨c2_amended.1 [] ("LOAD f".data) ("LOAD".data) ("f".data) [] [] []
      (by decide) (by decide) (by decide),
    c2_amended.2.1 [] ("LOAD f".data) ("LOAD".data) ("f".data) [] [] []
      (by decide) (by decide) (by decide),
    c2_amended.2.2.1 1 [] [("f".data, [])] ["LOAD f\n".data] [] []
      [] ("LOAD f\n".data) readyB
      (ServerErr.errorDuringUpload discUploadMsg)
      (by decide) (by decide) (by decide) (by decide),
    c2_amended.2.2.2 0 [] [] ("x\n".data) ("x".data) [] []
      ("ERROR Unknown command\n".data) [] []
      (by decide) (by decide)⟩

/-- C3 counterexample: in the threaded runtime, content lines that
arrive in the same recv as the `LOAD f` line are NOT consumed as file
content: the upload handler's own recv sees nothing (raising the upload
error), the stored file is empty, and the buffered lines `hello` and
`<END>` are then dispatched as commands (two unknown-command frames). -/
theorem c3_counterexample :
    handle_client 5 [] [] ["LOAD f\nhello\n<END>\n".data] []
      = some ("READY\n".data
            ++ "ERROR ErrorDuringUpload Connection lost during upload\n".data
            ++ "ERROR Unknown command\n".data
            ++ "ERROR Unknown command\n".data,
          [("f".data, [])]) ∧
    storageLookup [("f".data, [])] ("f".data) ≠ some ("hello\n".data) := by
  refine ⟨by decide, by decide⟩

/-- C3 amended: every byte of the upload stream that precedes the first
sentinel occurrence is consumed by the upload handler and written as
file content — never dispatched as a command — whatever the grouping
into non-empty reads, in the async runtime always and in the threaded
runtime for the bytes read after the LOAD line's recv (bytes that shared
the LOAD line's recv stay in the threaded connection buffer and are
dispatched as commands, as the counterexample shows). -/
theorem c3_amended :
    (∀ (st : Storage) (f : Bytes) (input : List Bytes) (pre rest : Bytes),
      (∀ c ∈ input, c ≠ []) →
      splitOnce sentinelB (joinB input) = some (pre, rest) →
      ∃ t, storageLookup ((cmd_load_async st f input).st) f = some t ∧
        pre <+: t) ∧
    (∀ (st : Storage) (f : Bytes) (input : List Bytes) (pre rest : Bytes),
      (∀ c ∈ input, c ≠ []) →
      splitOnce sentinelB (joinB input) = some (pre, rest) →
      ∃ t, storageLookup ((cmd_load st f input).st) f = some t ∧
        pre <+: t) := by
  have key : ∀ (st : Storage) (f : Bytes) (input : List Bytes)
      (pre rest : Bytes),
      (∀ c ∈ input, c ≠ []) →
      splitOnce sentinelB (joinB input) = some (pre, rest) →
      ∃ t, storageLookup ((cmd_load st f input).st) f = some t ∧
        pre <+: t := by
    intro st f input pre rest hne hsp
    obtain ⟨t, hres, hpre⟩ := loadLoop_written_extends hne hsp []
    rw [List.nil_append] at hres
    refine ⟨t, ?_, hpre⟩
    have hst : (cmd_load st f input).st
        = storageInsert st f (resWritten (loadLoop [] [] input)) := by
      unfold cmd_load
      cases loadLoop [] [] input with
      | ok w r => rfl
      | disconnected w => rfl
    rw [hst, hres]
    exact storageLookup_insert st f t
  constructor
  · intro st f input pre rest hne hsp
    have hca : cmd_load_async st f input = cmd_load st f input := by
      unfold cmd_load cmd_load_async
      rw [loadLoop_eq_async]
    rw [hca]
    exact key st f input pre rest hne hsp
  · exact key

/-- C3 amended witness: a sentinel split across two reads — all bytes
before its first occurrence are stored as content. -/
theorem c3_amended_witness :
    splitOnce sentinelB (joinB [("hello\n<E".data), ("ND>\n".data)])
      = some ("hello\n".data, []) ∧
    (∃ t, storageLookup ((cmd_load [] ("f".data)
        [("hello\n<E".data), ("ND>\n".data)]).st) ("f".data) = some t ∧
      ("hello\n".data : Bytes) <+: t) :=
  ⟨by decide, c3_amended.2 [] ("f".data) [("hello\n<E".data), ("ND>\n".data)]
    ("hello\n".data) [] (by decide) (by decide)⟩
